import Mathlib

/-!
Verification of the market-data ingestion and metrics code: a shallow
embedding of the Python sources (metrics.py, feed.py, plot_live.py and the
order-book store exercised by tests/test_orderbook.py), with theorems about
the embedded definitions. Prices, quantities and volumes are modelled as
rationals; timestamps and counters as integers or naturals.
-/

namespace HFT

/-- A trade record as consumed by metrics.py: price `p`, quantity `q`,
exchange trade time `T` in milliseconds. -/
structure Trade where
  p : ℚ
  q : ℚ
  T : ℤ
  deriving DecidableEq, Repr

/-- Embedding of metrics.calculate_spread: the bid-ask spread, defined only
when both sides are positive and the ask is strictly above the bid. -/
def calculate_spread (best_bid best_ask : ℚ) : Option ℚ :=
  if best_bid > 0 ∧ best_ask > 0 ∧ best_ask > best_bid then
    some (best_ask - best_bid)
  else
    none

/-- Embedding of metrics.calculate_mid_price: the mid-price, guarded by the
same condition as the spread. -/
def calculate_mid_price (best_bid best_ask : ℚ) : Option ℚ :=
  if best_bid > 0 ∧ best_ask > 0 ∧ best_ask > best_bid then
    some ((best_ask + best_bid) / 2)
  else
    none

/-- Embedding of metrics.calculate_order_book_imbalance: the normalized
difference of the best-level volumes, undefined at total volume 0. -/
def calculate_order_book_imbalance (bid_volume ask_volume : ℚ) : Option ℚ :=
  let total_volume := bid_volume + ask_volume
  if total_volume > 0 then
    some ((bid_volume - ask_volume) / total_volume)
  else
    none

/-- Embedding of metrics.calculate_vwap: volume-weighted average price over
the last `window_size_trades` trades.  The slice `trades[-w:]` of the Python
source keeps the last `min w (length trades)` elements, which is
`List.drop (length - w)` here. -/
def calculate_vwap (trades : List Trade) (window_size_trades : ℤ) : Option ℚ :=
  if trades = [] ∨ window_size_trades ≤ 0 then
    none
  else
    let relevant_trades := trades.drop (trades.length - window_size_trades.toNat)
    let total_value := (relevant_trades.map (fun t => t.p * t.q)).sum
    let total_volume := (relevant_trades.map (fun t => t.q)).sum
    if total_volume = 0 then none else some (total_value / total_volume)

/-- The backward scan of metrics.calculate_trade_volume_per_second: walk the
reversed trade list, add the quantity while the trade is inside the window,
and stop at the first trade older than the cutoff. -/
def tradeVolumeScan (cutoff_time_ns : ℤ) : List Trade → ℚ
  | [] => 0
  | trade :: rest =>
    if trade.T * 1000000 ≥ cutoff_time_ns then
      trade.q + tradeVolumeScan cutoff_time_ns rest
    else
      0

/-- Embedding of metrics.calculate_trade_volume_per_second: total trade
volume over the trailing window, computed by iterating backwards through the
trade list with an early exit. -/
def calculate_trade_volume_per_second (trades : List Trade)
    (current_time_ns : ℤ) (window_seconds : ℤ) : ℚ :=
  if trades = [] ∨ window_seconds ≤ 0 then 0
  else
    let window_ns := window_seconds * 1000000000
    let cutoff_time_ns := current_time_ns - window_ns
    tradeVolumeScan cutoff_time_ns trades.reverse

/-- The unoptimized trailing volume, written from the specification: the sum
of the quantities of all trades whose exchange time in nanoseconds is at or
after the cutoff, with no early exit. -/
def trailingVolumeSpec (trades : List Trade) (cutoff_time_ns : ℤ) : ℚ :=
  ((trades.filter (fun t => decide (t.T * 1000000 ≥ cutoff_time_ns))).map
    (fun t => t.q)).sum

/-!
Model of feed.binance_websocket_client.  The client loops forever: it tries
to connect; on a connect failure it sleeps the current backoff and doubles
it (capped at 60); on success it resets the backoff to 1 and then yields the
decoded frames of the session.  The `try` block wraps the whole session, so
any exception raised inside it — a connection error from the socket or a
decode error from orjson.loads — leaves the `async with` (closing the
socket), sleeps the current backoff, doubles it, and reconnects.  A finite
trace records each connect attempt; a connected session carries the raw
messages received before the session-ending connection error, where `none`
marks a frame that fails to decode (the session aborts there).
-/

/-- A raw websocket message: `some f` decodes to frame `f`, `none` raises in
orjson.loads. -/
abbrev RawMsg := Option ℕ

/-- One iteration of the `while True` loop of binance_websocket_client, as
seen from the environment. -/
inductive Attempt where
  | connectFail : Attempt
  | session : List RawMsg → Attempt
  deriving DecidableEq, Repr

/-- The frames yielded from one session: decoded messages up to the first
message whose decode raises, which aborts the session. -/
def decodedFrames : List RawMsg → List ℕ
  | [] => []
  | none :: _ => []
  | some f :: rest => f :: decodedFrames rest

/-- Result of one loop iteration: the backoff value carried to the next
iteration, the frames yielded, and the delays slept. -/
structure LoopResult where
  backoff_time : ℕ
  yielded : List ℕ
  slept : List ℕ
  deriving DecidableEq, Repr

/-- One iteration of the reconnect loop of binance_websocket_client.  On a
connect failure the current backoff is slept and then doubled, capped at 60.
On a successful connection the backoff is reset to 1; the session then ends
in an exception (connection error, or decode error at the first `none`),
which sleeps the reset backoff and doubles it. -/
def loopBody (backoff_time : ℕ) : Attempt → LoopResult
  | .connectFail =>
    ⟨min (backoff_time * 2) 60, [], [backoff_time]⟩
  | .session msgs =>
    let reset := 1
    ⟨min (reset * 2) 60, decodedFrames msgs, [reset]⟩

/-- Run the client over a finite trace of connect attempts, accumulating
yielded frames and slept delays and threading the backoff value. -/
def runClient (backoff_time : ℕ) : List Attempt → List ℕ × List ℕ × ℕ
  | [] => ([], [], backoff_time)
  | a :: rest =>
    let r := loopBody backoff_time a
    let r2 := runClient r.backoff_time rest
    (r.yielded ++ r2.1, r.slept ++ r2.2.1, r2.2.2)

/-- The delays slept while running a trace. -/
def sleptDelays (backoff_time : ℕ) (trace : List Attempt) : List ℕ :=
  (runClient backoff_time trace).2.1

/-- The frames yielded while running a trace. -/
def yieldedFrames (backoff_time : ℕ) (trace : List Attempt) : List ℕ :=
  (runClient backoff_time trace).1

/-!
Timestamp instrumentation of binance_websocket_client: for each message the
client reads a monotonic clock three times, in source order
`_ts_before_parse` (before orjson.loads), `_ts_after_parse` (after), and
`_ts_received_ws` (when the annotated dict is built, after decode).
-/

/-- A decoded event with the three timestamps the client attaches. -/
structure StampedEvent where
  payload : ℕ
  ts_before_parse : ℕ
  ts_after_parse : ℕ
  ts_received_ws : ℕ
  deriving DecidableEq, Repr

/-- Stamping of one message: the clock, a function of the read index, is
read at three successive indices in the source order of feed.py. -/
def stampEvent (clock : ℕ → ℕ) (i : ℕ) (payload : ℕ) : StampedEvent :=
  { payload := payload
    ts_before_parse := clock i
    ts_after_parse := clock (i + 1)
    ts_received_ws := clock (i + 2) }

/-!
Order-book store.  The OrderBook class itself (orderbook.pyx) is not among
the sources; only tests/test_orderbook.py exercises it.  The store is
therefore modelled from the specification: each side is a price-to-quantity
mapping, upsert removes the level when the quantity is nonpositive and
inserts or overwrites it otherwise, best bid and ask are the extremal price
keys with sentinel 0 on an empty side, and a top-of-book update atomically
replaces both whole sides.
-/

/-- One side of the book as an association list from price to quantity. -/
abbrev BookSide := List (ℚ × ℚ)

/-- Remove every level at the given price from a side. -/
def removeLevel (levels : BookSide) (price : ℚ) : BookSide :=
  levels.filter (fun l => decide (l.1 ≠ price))

/-- Modelled from the spec: upsert(side, price, quantity) — if the quantity
is nonpositive, remove the price from the side (a no-op when absent); else
insert or overwrite the level. -/
def upsertLevel (levels : BookSide) (price qty : ℚ) : BookSide :=
  if qty ≤ 0 then removeLevel levels price
  else (price, qty) :: removeLevel levels price

/-- Stored quantity at a price, 0 when the price is absent. -/
def quantityAt (levels : BookSide) (price : ℚ) : ℚ :=
  match levels.find? (fun l => decide (l.1 = price)) with
  | some l => l.2
  | none => 0

/-- Maximum price key of a side, sentinel 0 when the side is empty. -/
def sideMaxPrice : BookSide → ℚ
  | [] => 0
  | l :: rest => if rest = [] then l.1 else max l.1 (sideMaxPrice rest)

/-- Minimum price key of a side, sentinel 0 when the side is empty. -/
def sideMinPrice : BookSide → ℚ
  | [] => 0
  | l :: rest => if rest = [] then l.1 else min l.1 (sideMinPrice rest)

/-- The order-book store: a bid side and an ask side for one symbol. -/
structure OrderBook where
  bids : BookSide
  asks : BookSide
  deriving DecidableEq, Repr

/-- The empty book. -/
def emptyBook : OrderBook := ⟨[], []⟩

/-- A side selector. -/
inductive Side where
  | bid : Side
  | ask : Side
  deriving DecidableEq, Repr

/-- Modelled from the spec: upsert on the chosen side of the book. -/
def upsert (book : OrderBook) (side : Side) (price qty : ℚ) : OrderBook :=
  match side with
  | .bid => { book with bids := upsertLevel book.bids price qty }
  | .ask => { book with asks := upsertLevel book.asks price qty }

/-- Modelled from the spec: best_bid() — the maximum bid price present, or
0 when the bid side is empty. -/
def best_bid (book : OrderBook) : ℚ := sideMaxPrice book.bids

/-- Modelled from the spec: best_ask() — the minimum ask price present, or
0 when the ask side is empty. -/
def best_ask (book : OrderBook) : ℚ := sideMinPrice book.asks

/-- One upsert call, for replaying call sequences. -/
structure UpsertCall where
  side : Side
  price : ℚ
  qty : ℚ
  deriving DecidableEq, Repr

/-- Replay a sequence of upsert calls from a starting book. -/
def applyUpserts (book : OrderBook) : List UpsertCall → OrderBook
  | [] => book
  | c :: rest => applyUpserts (upsert book c.side c.price c.qty) rest

/-- A top-of-book update: best bid price `b` and quantity `B`, best ask
price `a` and quantity `A`. -/
structure TopOfBookUpdate where
  b : ℚ
  B : ℚ
  a : ℚ
  A : ℚ
  deriving DecidableEq, Repr

/-- Modelled from the spec: apply_top_of_book(update) — atomically discards
all existing levels on both sides and installs exactly the one bid level and
one ask level of the update; a side whose incoming quantity is nonpositive
becomes empty. -/
def apply_top_of_book (_book : OrderBook) (u : TopOfBookUpdate) : OrderBook :=
  { bids := upsertLevel [] u.b u.B
    asks := upsertLevel [] u.a u.A }

/-- A raw top-of-book message whose four required fields may each be
missing, as a malformed frame would present them. -/
structure RawTicker where
  b : Option ℚ
  B : Option ℚ
  a : Option ℚ
  A : Option ℚ
  deriving DecidableEq, Repr

/-- Decoding of a raw ticker message: defined only when all four required
fields are present. -/
def parseTicker (m : RawTicker) : Option TopOfBookUpdate :=
  match m.b, m.B, m.a, m.A with
  | some b, some B, some a, some A => some ⟨b, B, a, A⟩
  | _, _, _, _ => none

/-- Modelled from the spec: update_from_book_ticker — a malformed update
(missing required field) is rejected and the prior store is retained
unchanged; a well-formed one is applied atomically. -/
def update_from_book_ticker (book : OrderBook) (m : RawTicker) : OrderBook :=
  match parseTicker m with
  | some u => apply_top_of_book book u
  | none => book

/-! ## Theorems -/

/-- C7: the spread is best_ask minus best_bid exactly when both sides are
positive and the ask exceeds the bid, and undefined otherwise; the mid-price
is the average of the two under exactly the same condition; hence spread and
mid-price are defined on exactly the same inputs. -/
theorem spread_mid_same_definedness (best_bid best_ask : ℚ) :
    (best_bid > 0 ∧ best_ask > 0 ∧ best_ask > best_bid →
      calculate_spread best_bid best_ask = some (best_ask - best_bid) ∧
      calculate_mid_price best_bid best_ask = some ((best_ask + best_bid) / 2)) ∧
    (¬(best_bid > 0 ∧ best_ask > 0 ∧ best_ask > best_bid) →
      calculate_spread best_bid best_ask = none ∧
      calculate_mid_price best_bid best_ask = none) ∧
    ((calculate_spread best_bid best_ask).isSome ↔
      (calculate_mid_price best_bid best_ask).isSome) := by
  by_cases h : best_bid > 0 ∧ best_ask > 0 ∧ best_ask > best_bid <;>
    simp [calculate_spread, calculate_mid_price, h]

/-- Witness for C7 at best_bid = 100, best_ask = 101. -/
theorem spread_mid_same_definedness_witness :
    calculate_spread 100 101 = some (101 - 100) ∧
    calculate_mid_price 100 101 = some ((101 + 100) / 2) :=
  (spread_mid_same_definedness 100 101).1 (by norm_num)

/-- C8: for nonnegative volumes the imbalance is the normalized difference
when the total volume is positive, undefined when the total volume is 0, and
every defined value lies in the interval from -1 to 1. -/
theorem imbalance_formula_and_bounds (bid_volume ask_volume : ℚ)
    (hb : 0 ≤ bid_volume) (ha : 0 ≤ ask_volume) :
    (0 < bid_volume + ask_volume →
      calculate_order_book_imbalance bid_volume ask_volume =
        some ((bid_volume - ask_volume) / (bid_volume + ask_volume))) ∧
    (bid_volume + ask_volume = 0 →
      calculate_order_book_imbalance bid_volume ask_volume = none) ∧
    (∀ r : ℚ, calculate_order_book_imbalance bid_volume ask_volume = some r →
      -1 ≤ r ∧ r ≤ 1) := by
  refine ⟨?_, ?_, ?_⟩
  · intro h
    simp [calculate_order_book_imbalance, h]
  · intro h
    simp [calculate_order_book_imbalance, h]
  · intro r hr
    by_cases h : bid_volume + ask_volume > 0
    · simp only [calculate_order_book_imbalance, if_pos h, Option.some.injEq] at hr
      constructor
      · rw [← hr, le_div_iff₀ h]
        linarith
      · rw [← hr, div_le_one h]
        linarith
    · simp [calculate_order_book_imbalance, h] at hr

/-- Witness for C8 at bid volume 10 and ask volume 5. -/
theorem imbalance_formula_and_bounds_witness :
    calculate_order_book_imbalance 10 5 = some ((10 - 5) / (10 + 5)) :=
  (imbalance_formula_and_bounds 10 5 (by norm_num) (by norm_num)).1 (by norm_num)

/-- C9: the VWAP of any trade list is undefined for a zero or negative
window size, never a number or an error. -/
theorem vwap_none_on_nonpositive_window (trades : List Trade)
    (window_size_trades : ℤ) (h : window_size_trades ≤ 0) :
    calculate_vwap trades window_size_trades = none := by
  unfold calculate_vwap
  rw [if_pos (Or.inr h)]

/-- Witness for C9 on a nonempty trade list with positive volume, at window
sizes 0 and -5. -/
theorem vwap_none_on_nonpositive_window_witness :
    calculate_vwap [⟨100, 2, 0⟩] 0 = none ∧
    calculate_vwap [⟨100, 2, 0⟩] (-5) = none :=
  ⟨vwap_none_on_nonpositive_window _ 0 (by norm_num),
   vwap_none_on_nonpositive_window _ (-5) (by norm_num)⟩

/-- On a list whose trade times are non-increasing, the early-exit scan
computes the full filter-and-sum: once one trade is older than the cutoff
every later one is too. -/
theorem tradeVolumeScan_eq_spec (cutoff_time_ns : ℤ) (l : List Trade)
    (hs : l.Pairwise (fun x y => y.T ≤ x.T)) :
    tradeVolumeScan cutoff_time_ns l = trailingVolumeSpec l cutoff_time_ns := by
  induction l with
  | nil => rfl
  | cons t rest ih =>
    rw [List.pairwise_cons] at hs
    obtain ⟨hhead, htail⟩ := hs
    by_cases h : t.T * 1000000 ≥ cutoff_time_ns
    · rw [tradeVolumeScan, if_pos h, ih htail]
      unfold trailingVolumeSpec
      rw [List.filter_cons_of_pos (by simpa using h)]
      simp
    · rw [tradeVolumeScan, if_neg h]
      have hall : rest.filter (fun x => decide (x.T * 1000000 ≥ cutoff_time_ns)) = [] := by
        rw [List.filter_eq_nil_iff]
        intro x hx
        have hxt : x.T ≤ t.T := hhead x hx
        simp only [ge_iff_le, decide_eq_true_eq]
        intro hc
        exact h (le_trans hc (by linarith))
      unfold trailingVolumeSpec
      rw [List.filter_cons_of_neg (by simpa using h), hall]
      rfl

/-- C5: for a trade list whose exchange timestamps are non-decreasing in
list order and a positive window, the backward scan with early exit of
calculate_trade_volume_per_second returns exactly the sum of the quantities
of all trades at or after the cutoff, the unoptimized filter-and-sum. -/
theorem trade_volume_early_exit_correct (trades : List Trade)
    (current_time_ns window_seconds : ℤ)
    (hsorted : trades.Pairwise (fun x y => x.T ≤ y.T))
    (hw : 0 < window_seconds) :
    calculate_trade_volume_per_second trades current_time_ns window_seconds =
      trailingVolumeSpec trades (current_time_ns - window_seconds * 1000000000) := by
  unfold calculate_trade_volume_per_second
  by_cases he : trades = []
  · subst he
    simp [trailingVolumeSpec]
  · rw [if_neg (by push_neg; exact ⟨he, by omega⟩)]
    have hrev : trades.reverse.Pairwise (fun x y => y.T ≤ x.T) := by
      rw [List.pairwise_reverse]
      exact hsorted
    rw [tradeVolumeScan_eq_spec _ _ hrev]
    unfold trailingVolumeSpec
    rw [List.filter_reverse, List.map_reverse, List.sum_reverse]

/-- Witness for C5: the concrete four-trade scenario of the specification,
with trade times 7500, 8200, 9100 and 9700 ms and the current time
10000000000 ns, over a one-second window. -/
theorem trade_volume_early_exit_correct_witness :
    calculate_trade_volume_per_second
      [⟨999/10, 1, 7500⟩, ⟨9995/100, 1/2, 8200⟩, ⟨100, 2, 9100⟩, ⟨10005/100, 3/2, 9700⟩]
      10000000000 1 =
      trailingVolumeSpec
        [⟨999/10, 1, 7500⟩, ⟨9995/100, 1/2, 8200⟩, ⟨100, 2, 9100⟩, ⟨10005/100, 3/2, 9700⟩]
        (10000000000 - 1 * 1000000000) :=
  trade_volume_early_exit_correct _ _ _ (by decide) (by decide)

/-- Doubling with a cap commutes with capping the base: capping x at 60 and
then scaling by a power of two, capped at 60, equals scaling first. -/
theorem min_cap_mul_pow (x i : ℕ) :
    min (min x 60 * 2 ^ i) 60 = min (x * 2 ^ i) 60 := by
  rcases le_total x 60 with h | h
  · rw [min_eq_left h]
  · have hp : 1 ≤ 2 ^ i := Nat.one_le_two_pow
    have h1 : 60 ≤ 60 * 2 ^ i := by nlinarith
    have h2 : 60 ≤ x * 2 ^ i := by nlinarith
    rw [min_eq_right h, min_eq_right h1, min_eq_right h2]

/-- Delays slept over k consecutive connect failures from backoff b: the
capped doubling sequence starting at b. -/
theorem sleptDelays_replicate_fail (k : ℕ) (b : ℕ) (hb : b ≤ 60) :
    sleptDelays b (List.replicate k .connectFail) =
      (List.range k).map (fun i => min (b * 2 ^ i) 60) := by
  induction k generalizing b with
  | zero => rfl
  | succ k ih =>
    rw [List.replicate_succ]
    have step : sleptDelays b (Attempt.connectFail :: List.replicate k .connectFail) =
        b :: sleptDelays (min (b * 2) 60) (List.replicate k .connectFail) := by
      simp [sleptDelays, runClient, loopBody]
    rw [step, ih (min (b * 2) 60) (min_le_right _ _), List.range_succ_eq_map]
    simp only [List.map_cons, List.map_map]
    congr 1
    · simp [Nat.min_eq_left hb]
    · apply List.map_congr_left
      intro i _
      simp only [Function.comp_apply]
      rw [min_cap_mul_pow]
      congr 1
      rw [pow_succ]
      ring

/-- C3: with the initial backoff of 1, the delays slept on k consecutive
connection failures are min(2^i, 60) for i = 0..k-1, concretely
1, 2, 4, 8, 16, 32, 60, 60 for k = 8; and after any successful connection
the backoff is reset, so the delays slept from the session-ending failure
onward restart the same sequence at 1 regardless of the prior backoff. -/
theorem backoff_sequence (k b : ℕ) (msgs : List RawMsg) :
    (sleptDelays 1 (List.replicate k .connectFail) =
      (List.range k).map (fun i => min (2 ^ i) 60)) ∧
    (sleptDelays 1 (List.replicate 8 .connectFail) = [1, 2, 4, 8, 16, 32, 60, 60]) ∧
    (sleptDelays b (.session msgs :: List.replicate k .connectFail) =
      (List.range (k + 1)).map (fun i => min (2 ^ i) 60)) := by
  refine ⟨?_, by decide, ?_⟩
  · rw [sleptDelays_replicate_fail k 1 (by norm_num)]
    simp
  · have step : sleptDelays b (Attempt.session msgs :: List.replicate k .connectFail) =
        1 :: sleptDelays 2 (List.replicate k .connectFail) := by
      simp [sleptDelays, runClient, loopBody]
    rw [step, sleptDelays_replicate_fail k 2 (by norm_num), List.range_succ_eq_map]
    simp only [List.map_cons, List.map_map]
    congr 1
    apply List.map_congr_left
    intro i _
    simp only [Function.comp_apply]
    congr 1
    rw [pow_succ]
    ring

/-- C1 counterexample: with backoff 1 and a connected session whose second
frame fails to decode, the client yields only the first frame and sleeps the
backoff delay, refuting that the frame alone is dropped with no backoff
charged and iteration continuing with the next frame. -/
theorem decode_failure_claim_counterexample :
    (loopBody 1 (.session [some 7, none, some 9])).yielded = [7] ∧
    (loopBody 1 (.session [some 7, none, some 9])).slept = [1] ∧
    ¬ ((loopBody 1 (.session [some 7, none, some 9])).yielded = [7, 9] ∧
       (loopBody 1 (.session [some 7, none, some 9])).slept = []) := by
  decide

/-- C1 amended: a decode failure on a frame does not terminate the stream,
but it aborts the current session: the frames decoded before the bad frame
are yielded, the bad frame and the rest of the session are dropped, the
reset backoff of 1 is slept and doubled to 2, and iteration continues with
the subsequent reconnect attempts of the trace. -/
theorem decode_failure_aborts_session (b : ℕ) (pre : List ℕ)
    (rest : List RawMsg) (later : List Attempt) :
    runClient b (.session (pre.map some ++ none :: rest) :: later) =
      (pre ++ yieldedFrames 2 later, 1 :: sleptDelays 2 later,
        (runClient 2 later).2.2) := by
  have hdec : decodedFrames (pre.map some ++ none :: rest) = pre := by
    induction pre with
    | nil => rfl
    | cons x xs ih => simp [decodedFrames, ih]
  simp [runClient, loopBody, hdec, yieldedFrames, sleptDelays]

/-- C10: for a monotone clock, each stamped event satisfies
ts_before_parse at most ts_after_parse at most ts_received_ws, and for any
exchange time T the transport latency taken at ts_received_ws is at least
the parse latency plus the pre-parse latency: the arrival stamp is recorded
after decoding, so the derived latency includes the decode time. -/
theorem stamp_order_monotone (clock : ℕ → ℕ) (hmono : Monotone clock)
    (i payload : ℕ) :
    (stampEvent clock i payload).ts_before_parse ≤
      (stampEvent clock i payload).ts_after_parse ∧
    (stampEvent clock i payload).ts_after_parse ≤
      (stampEvent clock i payload).ts_received_ws ∧
    ∀ T : ℤ, (((stampEvent clock i payload).ts_received_ws : ℤ) - T) ≥
      (((stampEvent clock i payload).ts_after_parse : ℤ) -
        ((stampEvent clock i payload).ts_before_parse : ℤ)) +
      (((stampEvent clock i payload).ts_before_parse : ℤ) - T) := by
  refine ⟨hmono (by omega), hmono (by omega), ?_⟩
  intro T
  have h2 : clock (i + 1) ≤ clock (i + 2) := hmono (by omega)
  simp only [stampEvent]
  omega

/-- Witness for C10 with the identity clock. -/
theorem stamp_order_monotone_witness :
    (stampEvent (fun n => n) 0 5).ts_before_parse ≤
      (stampEvent (fun n => n) 0 5).ts_after_parse ∧
    (stampEvent (fun n => n) 0 5).ts_after_parse ≤
      (stampEvent (fun n => n) 0 5).ts_received_ws :=
  ⟨(stamp_order_monotone (fun n => n) (fun _ _ h => h) 0 5).1,
   (stamp_order_monotone (fun n => n) (fun _ _ h => h) 0 5).2.1⟩

/-- Upserting into an empty side leaves the single level, or nothing when
the quantity is nonpositive. -/
theorem upsertLevel_nil (price qty : ℚ) :
    upsertLevel [] price qty = if qty ≤ 0 then [] else [(price, qty)] := by
  simp [upsertLevel, removeLevel]

/-- C2: after a top-of-book update the bid side holds exactly the level
(b, B) — present if and only if B is positive — and the ask side exactly
(a, A) likewise, with every previously present level on both sides gone,
whatever the prior state was. -/
theorem apply_top_of_book_exact (book : OrderBook) (u : TopOfBookUpdate) :
    (∀ p q : ℚ, (p, q) ∈ (apply_top_of_book book u).bids ↔
      p = u.b ∧ q = u.B ∧ 0 < u.B) ∧
    (∀ p q : ℚ, (p, q) ∈ (apply_top_of_book book u).asks ↔
      p = u.a ∧ q = u.A ∧ 0 < u.A) := by
  constructor <;> intro p q <;>
    simp only [apply_top_of_book, upsertLevel_nil]
  · by_cases h : u.B ≤ 0
    · rw [if_pos h]
      simp only [List.not_mem_nil, false_iff, not_and]
      intro _ _
      linarith
    · rw [if_neg h]
      simp only [List.mem_singleton, Prod.mk.injEq]
      constructor
      · rintro ⟨h1, h2⟩
        exact ⟨h1, h2, not_le.mp h⟩
      · rintro ⟨h1, h2, -⟩
        exact ⟨h1, h2⟩
  · by_cases h : u.A ≤ 0
    · rw [if_pos h]
      simp only [List.not_mem_nil, false_iff, not_and]
      intro _ _
      linarith
    · rw [if_neg h]
      simp only [List.mem_singleton, Prod.mk.injEq]
      constructor
      · rintro ⟨h1, h2⟩
        exact ⟨h1, h2, not_le.mp h⟩
      · rintro ⟨h1, h2, -⟩
        exact ⟨h1, h2⟩

/-- Witness for C2: the update with bid level (100.5, 12) applied over a
book holding bid (100, 10) and ask (101, 5) contains the new bid level and
no longer the old one. -/
theorem apply_top_of_book_exact_witness :
    (((1005/10 : ℚ), (12 : ℚ)) ∈
      (apply_top_of_book ⟨[(100, 10)], [(101, 5)]⟩ ⟨1005/10, 12, 1015/10, 6⟩).bids) ∧
    (((100 : ℚ), (10 : ℚ)) ∉
      (apply_top_of_book ⟨[(100, 10)], [(101, 5)]⟩ ⟨1005/10, 12, 1015/10, 6⟩).bids) := by
  have h := apply_top_of_book_exact ⟨[(100, 10)], [(101, 5)]⟩ ⟨1005/10, 12, 1015/10, 6⟩
  constructor
  · exact (h.1 _ _).mpr ⟨rfl, rfl, by norm_num⟩
  · intro hmem
    have hc := (h.1 _ _).mp hmem
    norm_num at hc

/-- C6: a top-of-book message missing any of its four required fields is
rejected and the prior store is returned unchanged on both sides. -/
theorem malformed_ticker_rejected (book : OrderBook) (m : RawTicker)
    (h : m.b = none ∨ m.B = none ∨ m.a = none ∨ m.A = none) :
    update_from_book_ticker book m = book := by
  rcases m with ⟨mb, mB, ma, mA⟩
  cases mb <;> cases mB <;> cases ma <;> cases mA <;>
    first
      | rfl
      | simp at h

/-- Witness for C6: a message missing its bid price leaves a concrete book
untouched. -/
theorem malformed_ticker_rejected_witness :
    update_from_book_ticker ⟨[(100, 10)], [(101, 5)]⟩
      ⟨none, some 12, some 101, some 6⟩ = ⟨[(100, 10)], [(101, 5)]⟩ :=
  malformed_ticker_rejected _ _ (Or.inl rfl)

/-- All stored quantities on a side are positive: the store never keeps a
level at quantity 0 or below. -/
def allPos (levels : BookSide) : Prop := ∀ l ∈ levels, 0 < l.2

/-- Upsert preserves positivity of stored quantities. -/
theorem allPos_upsertLevel (levels : BookSide) (price qty : ℚ)
    (h : allPos levels) : allPos (upsertLevel levels price qty) := by
  unfold upsertLevel
  by_cases hq : qty ≤ 0
  · rw [if_pos hq]
    intro l hl
    exact h l (List.mem_of_mem_filter hl)
  · rw [if_neg hq]
    intro l hl
    rcases List.mem_cons.mp hl with h1 | h1
    · rw [h1]
      exact not_le.mp hq
    · exact h l (List.mem_of_mem_filter h1)

/-- Every book reached from a starting book with positive quantities by a
sequence of upserts again has positive quantities on both sides. -/
theorem applyUpserts_allPos (calls : List UpsertCall) (book : OrderBook)
    (hb : allPos book.bids) (ha : allPos book.asks) :
    allPos (applyUpserts book calls).bids ∧
    allPos (applyUpserts book calls).asks := by
  induction calls generalizing book with
  | nil => exact ⟨hb, ha⟩
  | cons c rest ih =>
    obtain ⟨side, price, qty⟩ := c
    cases side
    · exact ih { book with bids := upsertLevel book.bids price qty }
        (allPos_upsertLevel _ _ _ hb) ha
    · exact ih { book with asks := upsertLevel book.asks price qty }
        hb (allPos_upsertLevel _ _ _ ha)

/-- The maximum price of a nonempty side is one of its price keys. -/
theorem sideMaxPrice_mem (levels : BookSide) (h : levels ≠ []) :
    sideMaxPrice levels ∈ levels.map Prod.fst := by
  induction levels with
  | nil => exact absurd rfl h
  | cons l rest ih =>
    by_cases hr : rest = []
    · subst hr
      simp [sideMaxPrice]
    · simp only [sideMaxPrice, if_neg hr, List.map_cons, List.mem_cons]
      rcases max_choice l.1 (sideMaxPrice rest) with hm | hm <;> rw [hm]
      · exact Or.inl rfl
      · exact Or.inr (ih hr)

/-- Every price key of a side is at most its maximum price. -/
theorem sideMaxPrice_ge (levels : BookSide) (p : ℚ)
    (hp : p ∈ levels.map Prod.fst) : p ≤ sideMaxPrice levels := by
  induction levels with
  | nil => simp at hp
  | cons l rest ih =>
    simp only [List.map_cons, List.mem_cons] at hp
    by_cases hr : rest = []
    · subst hr
      simp only [sideMaxPrice, if_pos rfl]
      rcases hp with hp | hp
      · exact le_of_eq hp
      · simp at hp
    · simp only [sideMaxPrice, if_neg hr]
      rcases hp with hp | hp
      · rw [hp]
        exact le_max_left _ _
      · exact le_trans (ih hp) (le_max_right _ _)

/-- The minimum price of a nonempty side is one of its price keys. -/
theorem sideMinPrice_mem (levels : BookSide) (h : levels ≠ []) :
    sideMinPrice levels ∈ levels.map Prod.fst := by
  induction levels with
  | nil => exact absurd rfl h
  | cons l rest ih =>
    by_cases hr : rest = []
    · subst hr
      simp [sideMinPrice]
    · simp only [sideMinPrice, if_neg hr, List.map_cons, List.mem_cons]
      rcases min_choice l.1 (sideMinPrice rest) with hm | hm <;> rw [hm]
      · exact Or.inl rfl
      · exact Or.inr (ih hr)

/-- Every price key of a side is at least its minimum price. -/
theorem sideMinPrice_le (levels : BookSide) (p : ℚ)
    (hp : p ∈ levels.map Prod.fst) : sideMinPrice levels ≤ p := by
  induction levels with
  | nil => simp at hp
  | cons l rest ih =>
    simp only [List.map_cons, List.mem_cons] at hp
    by_cases hr : rest = []
    · subst hr
      simp only [sideMinPrice, if_pos rfl]
      rcases hp with hp | hp
      · exact le_of_eq hp.symm
      · simp at hp
    · simp only [sideMinPrice, if_neg hr]
      rcases hp with hp | hp
      · rw [hp]
        exact min_le_left _ _
      · exact le_trans (min_le_right _ _) (ih hp)

/-- A price with positive stored quantity is a price key of the side. -/
theorem quantityAt_pos_mem (levels : BookSide) (p : ℚ)
    (h : 0 < quantityAt levels p) : p ∈ levels.map Prod.fst := by
  unfold quantityAt at h
  cases hf : levels.find? (fun l => decide (l.1 = p)) with
  | none =>
    rw [hf] at h
    exact absurd h (lt_irrefl 0)
  | some l =>
    have hmem := List.mem_of_find?_eq_some hf
    have hpred := List.find?_some hf
    simp only [decide_eq_true_eq] at hpred
    rw [← hpred]
    exact List.mem_map_of_mem Prod.fst hmem

/-- On a side with positive quantities, every price key has positive stored
quantity. -/
theorem mem_quantityAt_pos (levels : BookSide) (p : ℚ)
    (hall : allPos levels) (hp : p ∈ levels.map Prod.fst) :
    0 < quantityAt levels p := by
  unfold quantityAt
  cases hf : levels.find? (fun l => decide (l.1 = p)) with
  | none =>
    rw [List.find?_eq_none] at hf
    obtain ⟨l, hl, hlp⟩ := List.mem_map.mp hp
    have := hf l hl
    simp only [decide_eq_true_eq] at this
    exact absurd hlp this
  | some l =>
    exact hall l (List.mem_of_find?_eq_some hf)

/-- C4: after any sequence of upsert calls from the empty book, best_bid is
the maximum price with positive stored quantity on the bid side — it has
positive quantity itself and dominates every price with positive quantity —
and is the sentinel 0 on an empty bid side; symmetrically best_ask is the
minimum such price on the ask side, and 0 on an empty ask side. -/
theorem best_bid_ask_after_upserts (calls : List UpsertCall) :
    ((∀ p : ℚ, 0 < quantityAt (applyUpserts emptyBook calls).bids p →
        p ≤ best_bid (applyUpserts emptyBook calls)) ∧
     ((applyUpserts emptyBook calls).bids ≠ [] →
        0 < quantityAt (applyUpserts emptyBook calls).bids
          (best_bid (applyUpserts emptyBook calls))) ∧
     ((applyUpserts emptyBook calls).bids = [] →
        best_bid (applyUpserts emptyBook calls) = 0)) ∧
    ((∀ p : ℚ, 0 < quantityAt (applyUpserts emptyBook calls).asks p →
        best_ask (applyUpserts emptyBook calls) ≤ p) ∧
     ((applyUpserts emptyBook calls).asks ≠ [] →
        0 < quantityAt (applyUpserts emptyBook calls).asks
          (best_ask (applyUpserts emptyBook calls))) ∧
     ((applyUpserts emptyBook calls).asks = [] →
        best_ask (applyUpserts emptyBook calls) = 0)) := by
  obtain ⟨hb, ha⟩ := applyUpserts_allPos calls emptyBook
    (fun l hl => absurd hl (List.not_mem_nil l))
    (fun l hl => absurd hl (List.not_mem_nil l))
  refine ⟨⟨?_, ?_, ?_⟩, ?_, ?_, ?_⟩
  · intro p hp
    exact sideMaxPrice_ge _ p (quantityAt_pos_mem _ p hp)
  · intro hne
    exact mem_quantityAt_pos _ _ hb (sideMaxPrice_mem _ hne)
  · intro he
    rw [best_bid, he]
    rfl
  · intro p hp
    exact sideMinPrice_le _ p (quantityAt_pos_mem _ p hp)
  · intro hne
    exact mem_quantityAt_pos _ _ ha (sideMinPrice_mem _ hne)
  · intro he
    rw [best_ask, he]
    rfl

/-- Witness for C4: after inserting bids at 10 and 20, the best bid price
has positive stored quantity. -/
theorem best_bid_ask_after_upserts_witness :
    0 < quantityAt (applyUpserts emptyBook [⟨.bid, 10, 1⟩, ⟨.bid, 20, 2⟩]).bids
        (best_bid (applyUpserts emptyBook [⟨.bid, 10, 1⟩, ⟨.bid, 20, 2⟩])) :=
  (best_bid_ask_after_upserts [⟨.bid, 10, 1⟩, ⟨.bid, 20, 2⟩]).1.2.1 (by decide)

end HFT
